import Mathlib

set_option maxRecDepth 16384

/-!
# Verification of `youtil.py`

A shallow embedding of the `Youtil` class from `youtil.py` and proofs about it.

Strings are modelled as `List Char`.  Python string primitives
(`str.replace`, `re.sub(r" +", " ")`, `str.strip`, `str.lower`,
`os.path.splitext`) are embedded as executable Lean functions below, each
following the CPython semantics on the fragment the program exercises.

External collaborators (the `ffmpeg` subprocess, the `yt_dlp` library, the
filesystem) are modelled as explicit parameters: the subprocess runner is a
function from the command string to an exit status (its result is discarded,
exactly as in the source), the metadata lookup is an `Option VideoInfo`
value, and the working directory is a list of file names.
-/

/-- One pass of Python `str.replace(old, new)` (for non-empty `old`):
scan left to right, replacing non-overlapping occurrences of `old` by `new`.
`fuel` bounds the recursion; `replaceAll` instantiates it with the string
length, which is always sufficient since every step consumes at least one
character. -/
def replaceAllGo (old new : List Char) : Nat → List Char → List Char
  | _, [] => []
  | 0, s => s
  | fuel+1, c :: rest =>
    if old.isPrefixOf (c :: rest) && !old.isEmpty then
      new ++ replaceAllGo old new fuel ((c :: rest).drop old.length)
    else
      c :: replaceAllGo old new fuel rest

/-- Python `s.replace(old, new)` for non-empty `old` (the only case the
program uses). -/
def replaceAll (old new s : List Char) : List Char :=
  replaceAllGo old new s.length s

/-- Python `re.sub(r" +", " ", s)`: collapse each maximal run of space
characters into a single space. -/
def collapseSpaces : List Char → List Char
  | [] => []
  | [c] => [c]
  | c :: d :: rest =>
    if c = ' ' ∧ d = ' ' then collapseSpaces (d :: rest)
    else c :: collapseSpaces (d :: rest)

/-- The ASCII whitespace characters stripped by Python `str.strip()`
(the fragment of Unicode whitespace relevant to this program). -/
def is_py_space (c : Char) : Bool :=
  c == ' ' || c == '\t' || c == '\n' || c == '\r' || c == '\x0b' || c == '\x0c'

/-- Python `s.strip()`: remove leading and trailing whitespace. -/
def py_strip (s : List Char) : List Char :=
  ((s.dropWhile is_py_space).reverse.dropWhile is_py_space).reverse

/-- The ASCII uppercase/lowercase letter pairs, used to model `str.lower`. -/
def ascii_upper_lower : List (Char × Char) :=
  [('A','a'),('B','b'),('C','c'),('D','d'),('E','e'),('F','f'),('G','g'),
   ('H','h'),('I','i'),('J','j'),('K','k'),('L','l'),('M','m'),('N','n'),
   ('O','o'),('P','p'),('Q','q'),('R','r'),('S','s'),('T','t'),('U','u'),
   ('V','v'),('W','w'),('X','x'),('Y','y'),('Z','z')]

/-- Python `str.lower` on a single character (ASCII fragment; the input
filenames this program handles are ASCII apart from uncased punctuation). -/
def py_lower_char (c : Char) : Char :=
  match ascii_upper_lower.find? (fun p => p.1 == c) with
  | some p => p.2
  | none => c

/-- Python `s.lower()` (ASCII fragment). -/
def py_lower (s : List Char) : List Char :=
  s.map py_lower_char

/-- `os.path.splitext(p)[0]` (posix): the path without its extension.
The extension starts at the last `'.'` of the final path component, except
when every character of that component before the dot is itself a dot
(then there is no extension). -/
def splitext_root (p : List Char) : List Char :=
  let baseRev := p.reverse.takeWhile (fun c => !(c == '/'))
  let extRev := baseRev.takeWhile (fun c => !(c == '.'))
  if extRev.length = baseRev.length then p
  else if (baseRev.drop (extRev.length + 1)).all (fun c => c == '.') then p
  else p.take (p.length - extRev.length - 1)

/-- The ordered replacement table of `Youtil.get_new_filename`
(source lines 36-50); Python dicts iterate in insertion order. -/
def replacements : List (List Char × List Char) :=
  [("(Official Video)".data, []),
   ("[Official Music Video]".data, []),
   ("(Official Music Video)".data, []),
   ("(Official Live Video)".data, []),
   (" Part ".data, "-".data),
   (" (Interlude) ".data, "-interlude-".data),
   (" (Feat. ".data, "-feat-".data),
   (" (feat. ".data, "-feat-".data),
   (" feat. ".data, "-feat-".data),
   (" ft. ".data, "-feat-".data),
   (" w⧸ ".data, "-with-".data),
   (" & ".data, "-and-".data),
   (" + ".data, "-and-".data)]

/-- The replacement loop of `get_new_filename` (source lines 51-52). -/
def apply_replacements (s : List Char) : List Char :=
  replacements.foldl (fun acc p => replaceAll p.1 p.2 acc) s

/-- The space/punctuation cleanup of `get_new_filename` (source lines
54-64), innermost application first: collapse space runs, strip, comma to
hyphen, delete parentheses and brackets, collapse spaced hyphen/en-dash,
delete every remaining space. -/
def cleanup (s : List Char) : List Char :=
  replaceAll [' '] []
    (replaceAll [' ', '–', ' '] ['-']
      (replaceAll [' ', '-', ' '] ['-']
        (replaceAll [']'] []
          (replaceAll ['['] []
            (replaceAll [')'] []
              (replaceAll ['('] []
                (replaceAll [','] ['-']
                  (py_strip (collapseSpaces s)))))))))

/-- The head/tail reassembly of `get_new_filename` (source lines 66-71):
`new_filename[:-16].strip().lower().replace(" ", "-") + "__" + new_filename[-16:]`. -/
def reassemble (s : List Char) : List Char :=
  replaceAll [' '] ['-'] (py_lower (py_strip (s.take (s.length - 16))))
    ++ '_' :: '_' :: [] ++ s.drop (s.length - 16)

/-- `Youtil.get_new_filename` (source lines 26-78).  The final step is
`os.path.splitext(new_filename)[0]` joined with `fmt` by `"."`. -/
def get_new_filename (filename fmt : List Char) : List Char :=
  splitext_root (reassemble (cleanup (apply_replacements filename))) ++ '.' :: fmt

/-- The error codes documented in the `convert_to_mp3` docstring
(source lines 98-101). -/
inductive ConversionError
  | CONVERTED_FILE_PATH_ALREADY_EXISTS
  | SOURCE_FILE_DOES_NOT_EXIST
  | FILESYSTEM_ERROR
deriving DecidableEq

/-- The result dictionary of `Youtil.convert_to_mp3` (source lines 113-118). -/
structure ConvertResult where
  original_filename : List Char
  new_filename : List Char
  successfully_converted : Bool
  error_code : Option ConversionError
deriving DecidableEq

/-- `Youtil.convert_to_mp3` (source lines 80-120).  The external shell is
modelled by `run`, mapping the command string to an exit status; as in the
source, the status is never inspected.  Returns the result dictionary and
the single command string passed to the shell. -/
def convert_to_mp3 (run : List Char → Int) (filename : List Char) :
    ConvertResult × List Char :=
  let new_filename := get_new_filename filename ("mp3".data)
  let command_string :=
    ("ffmpeg -i \"".data) ++ filename ++ ("\" -vn -ab 128k -ar 44100 -y \"".data)
      ++ new_filename ++ '"' :: []
  let _exit_status := run command_string
  ({ original_filename := filename,
     new_filename := new_filename,
     successfully_converted := true,
     error_code := none }, command_string)

/-- `Youtil.batch_convert_to_mp3` (source lines 122-138): a sequential loop
appending one result per input filename. -/
def batch_convert_to_mp3 (run : List Char → Int) : List (List Char) → List ConvertResult
  | [] => []
  | filename :: rest => (convert_to_mp3 run filename).1 :: batch_convert_to_mp3 run rest

/-- The metadata dictionary returned by the external `yt_dlp` library
(the fields `download_video` reads, source lines 172-183). -/
structure VideoInfo where
  id : List Char
  filesize_approx : Int
  title : List Char
  fulltitle : List Char
  duration : Int
deriving DecidableEq

/-- The result dictionary of `Youtil.download_video` (source lines 175-184). -/
structure DownloadRecord where
  url : List Char
  filename : List Char
  filesize : Int
  title : List Char
  fulltitle : List Char
  youtube_id : List Char
  duration : Int
  timestamp : Int
deriving DecidableEq

/-- The one failure `download_video` can signal itself: `glob.glob(...)[0]`
raises `IndexError` when the glob matches nothing (source line 174). -/
inductive DownloadFailure
  | index_error
deriving DecidableEq

/-- `glob.glob(f"*{youtube_id}*")` over the working directory `dir_listing`:
the files whose name contains the id, in directory order. -/
def glob_glob (dir_listing : List (List Char)) (youtube_id : List Char) :
    List (List Char) :=
  dir_listing.filter (fun f => decide (youtube_id <:+: f))

/-- `Youtil.download_video` (source lines 140-186).  The external library
call is modelled by its result `video_info`; the filesystem by
`dir_listing`; `datetime.now().timestamp()` by `now_ts`.  Returns `none`
for the empty dictionary returned when the library yields no metadata. -/
def download_video (video_info : Option VideoInfo) (dir_listing : List (List Char))
    (now_ts : Int) (url : List Char) :
    Except DownloadFailure (Option DownloadRecord) :=
  match video_info with
  | none => .ok none
  | some info =>
    match glob_glob dir_listing info.id with
    | [] => .error .index_error
    | filename :: _ =>
      .ok (some { url := url,
                  filename := filename,
                  filesize := info.filesize_approx,
                  title := info.title,
                  fulltitle := info.fulltitle,
                  youtube_id := info.id,
                  duration := info.duration,
                  timestamp := now_ts })

/-- `Youtil.batch_download_video` (source lines 188-203): a sequential loop;
an uncaught failure in one download aborts the remaining batch, exactly as
an exception would in the Python loop.  `env` gives, per URL, the library
metadata result, the directory listing, and the wall-clock timestamp. -/
def batch_download_video (env : List Char → Option VideoInfo × List (List Char) × Int) :
    List (List Char) → Except DownloadFailure (List (Option DownloadRecord))
  | [] => .ok []
  | url :: rest =>
    match download_video (env url).1 (env url).2.1 (env url).2.2 url with
    | .error e => .error e
    | .ok r =>
      match batch_download_video env rest with
      | .error e => .error e
      | .ok rs => .ok (r :: rs)

/-! ## Definitions taken from the specification's wording

These restate steps of the algorithm in the words of the specification (not
of the source), for comparison with the embedded code. -/

/-- Stated from the claim's wording, for comparison with `get_new_filename`:
the head (everything except the last 16 characters of the cleaned string)
is *only lower-cased* before reassembly as `head ++ "__" ++ tail`. -/
def claimed_c1_result (filename fmt : List Char) : List Char :=
  let s := cleanup (apply_replacements filename)
  splitext_root (py_lower (s.take (s.length - 16)) ++ '_' :: '_' :: []
    ++ s.drop (s.length - 16)) ++ '.' :: fmt

/-- Stated from the spec's wording: "everything before the final period"
(the whole string when it has no period). -/
def before_last_dot (p : List Char) : List Char :=
  let extRev := p.reverse.takeWhile (fun c => !(c == '.'))
  if extRev.length = p.length then p
  else p.take (p.length - extRev.length - 1)

/-- The final path component of `p` has a genuine extension in the
`os.path.splitext` sense: it contains a period preceded (within the
component) by some non-period character. -/
def has_proper_ext (p : List Char) : Bool :=
  let baseRev := p.reverse.takeWhile (fun c => !(c == '/'))
  let extRev := baseRev.takeWhile (fun c => !(c == '.'))
  (extRev.length != baseRev.length)
    && !((baseRev.drop (extRev.length + 1)).all (fun c => c == '.'))

/-- The six characters that the cleanup steps eliminate. -/
def forbidden_chars : List Char := [' ', ',', '(', ')', '[', ']']

/-! ## Helper lemmas -/

lemma infix_of_prefix_chars {l₁ l₂ : List Char} (h : l₁ <+: l₂) : l₁ <:+: l₂ := by
  rcases h with ⟨t, ht⟩
  exact ⟨[], t, by simpa using ht⟩

lemma mem_of_singleton_occurrence {a : Char} {l : List Char} (h : [a] <:+: l) : a ∈ l :=
  List.singleton_sublist.mp h.sublist

lemma mem_replaceAllGo {c : Char} (old new : List Char) :
    ∀ (fuel : Nat) (s : List Char), c ∈ replaceAllGo old new fuel s → c ∈ s ∨ c ∈ new := by
  intro fuel
  induction fuel with
  | zero =>
    intro s h
    cases s with
    | nil => simp [replaceAllGo] at h
    | cons a t => exact .inl h
  | succ n ih =>
    intro s h
    cases s with
    | nil => simp [replaceAllGo] at h
    | cons a t =>
      simp only [replaceAllGo] at h
      split at h
      · rcases List.mem_append.mp h with h1 | h2
        · exact .inr h1
        · rcases ih _ h2 with h3 | h4
          · exact .inl (List.drop_subset _ _ h3)
          · exact .inr h4
      · rcases List.mem_cons.mp h with h1 | h2
        · exact .inl (h1 ▸ List.mem_cons_self a t)
        · rcases ih _ h2 with h3 | h4
          · exact .inl (List.mem_cons_of_mem _ h3)
          · exact .inr h4

lemma replaceAllGo_single_not_mem {a : Char} {new : List Char} (hnew : a ∉ new) :
    ∀ (fuel : Nat) (s : List Char), s.length ≤ fuel → a ∉ replaceAllGo [a] new fuel s := by
  intro fuel
  induction fuel with
  | zero =>
    intro s hlen
    have : s = [] := List.eq_nil_of_length_eq_zero (Nat.le_zero.mp hlen)
    subst this
    simp [replaceAllGo]
  | succ n ih =>
    intro s hlen
    cases s with
    | nil => simp [replaceAllGo]
    | cons b t =>
      simp only [replaceAllGo]
      split
      · intro h
        rcases List.mem_append.mp h with h1 | h2
        · exact hnew h1
        · exact ih _ (by simp at hlen ⊢; omega) h2
      · next hc =>
        have hab : ¬ a = b := by
          simp [List.isPrefixOf] at hc
          exact hc
        intro h
        rcases List.mem_cons.mp h with h1 | h2
        · exact hab h1
        · exact ih _ (by simp at hlen ⊢; omega) h2

lemma replaceAllGo_id_of_no_match {old new : List Char} :
    ∀ (fuel : Nat) (s : List Char), ¬ old <:+: s → replaceAllGo old new fuel s = s := by
  intro fuel
  induction fuel with
  | zero =>
    intro s _
    cases s with
    | nil => rfl
    | cons b t => rfl
  | succ n ih =>
    intro s hno
    cases s with
    | nil => rfl
    | cons b t =>
      simp only [replaceAllGo]
      split
      · next hc =>
        exfalso
        rw [Bool.and_eq_true] at hc
        exact hno (infix_of_prefix_chars (List.isPrefixOf_iff_prefix.mp hc.1))
      · rw [ih t (fun h => hno (List.infix_cons h))]

lemma replaceAllGo_infix_new {old new : List Char} (hold : old ≠ []) :
    ∀ (fuel : Nat) (s : List Char), s.length ≤ fuel → old <:+: s →
      new <:+: replaceAllGo old new fuel s := by
  intro fuel
  induction fuel with
  | zero =>
    intro s hlen hin
    have : s = [] := List.eq_nil_of_length_eq_zero (Nat.le_zero.mp hlen)
    subst this
    rcases hin with ⟨u, v, huv⟩
    rcases List.append_eq_nil.mp (List.append_eq_nil.mp huv).1 with ⟨-, h2⟩
    exact absurd h2 hold
  | succ n ih =>
    intro s hlen hin
    cases s with
    | nil =>
      rcases hin with ⟨u, v, huv⟩
      rcases List.append_eq_nil.mp (List.append_eq_nil.mp huv).1 with ⟨-, h2⟩
      exact absurd h2 hold
    | cons b t =>
      simp only [replaceAllGo]
      split
      · exact infix_of_prefix_chars (List.prefix_append _ _)
      · next hc =>
        have hemp : old.isEmpty = false := by
          cases old with
          | nil => exact absurd rfl hold
          | cons x xs => rfl
        rw [hemp] at hc
        simp only [Bool.not_false, Bool.and_true] at hc
        have hnp : ¬ old <+: b :: t := by
          intro hp
          exact hc (List.isPrefixOf_iff_prefix.mpr hp)
        rcases List.infix_cons_iff.mp hin with h1 | h1
        · exact absurd h1 hnp
        · exact List.infix_cons (ih t (by simp at hlen ⊢; omega) h1)

lemma mem_replaceAll {c : Char} {old new s : List Char}
    (h : c ∈ replaceAll old new s) : c ∈ s ∨ c ∈ new :=
  mem_replaceAllGo old new s.length s h

lemma not_mem_replaceAll {c : Char} {old new s : List Char}
    (hs : c ∉ s) (hnew : c ∉ new) : c ∉ replaceAll old new s :=
  fun h => (mem_replaceAll h).elim hs hnew

lemma replaceAll_single_not_mem {a : Char} {new : List Char} (hnew : a ∉ new)
    (s : List Char) : a ∉ replaceAll [a] new s :=
  replaceAllGo_single_not_mem hnew s.length s le_rfl

lemma replaceAll_id_of_no_match {old new s : List Char}
    (h : ¬ old <:+: s) : replaceAll old new s = s :=
  replaceAllGo_id_of_no_match s.length s h

lemma replaceAll_infix_new {old new s : List Char} (hold : old ≠ [])
    (h : old <:+: s) : new <:+: replaceAll old new s :=
  replaceAllGo_infix_new hold s.length s le_rfl h

lemma replaceAll_id_of_not_mem {a : Char} {new s : List Char}
    (h : a ∉ s) : replaceAll [a] new s = s :=
  replaceAll_id_of_no_match (fun hin => h (mem_of_singleton_occurrence hin))

lemma mem_py_strip {c : Char} {s : List Char} (h : c ∈ py_strip s) : c ∈ s := by
  unfold py_strip at h
  rw [List.mem_reverse] at h
  have h2 := (List.dropWhile_sublist _).subset h
  rw [List.mem_reverse] at h2
  exact (List.dropWhile_sublist _).subset h2

/-- The lowercase letters that `py_lower_char` can produce. -/
def ascii_lower_values : List Char := ascii_upper_lower.map Prod.snd

lemma py_lower_char_cases (c : Char) :
    py_lower_char c = c ∨ py_lower_char c ∈ ascii_lower_values := by
  unfold py_lower_char
  cases h : ascii_upper_lower.find? (fun p => p.1 == c) with
  | none => exact .inl rfl
  | some p => exact .inr (List.mem_map_of_mem Prod.snd (List.mem_of_find?_eq_some h))

lemma mem_py_lower {c : Char} {s : List Char} (h : c ∈ py_lower s) :
    c ∈ s ∨ c ∈ ascii_lower_values := by
  unfold py_lower at h
  rcases List.mem_map.mp h with ⟨d, hd, hdc⟩
  rcases py_lower_char_cases d with h1 | h1
  · have hdc2 : d = c := h1.symm.trans hdc
    exact .inl (hdc2 ▸ hd)
  · exact .inr (hdc ▸ h1)

lemma mem_splitext_root {c : Char} {p : List Char}
    (h : c ∈ splitext_root p) : c ∈ p := by
  simp only [splitext_root] at h
  split at h
  · exact h
  · split at h
    · exact h
    · exact List.take_subset _ _ h

lemma space_not_mem_cleanup (s : List Char) : ' ' ∉ cleanup s := by
  unfold cleanup
  exact replaceAll_single_not_mem (by decide) _

lemma comma_not_mem_cleanup (s : List Char) : ',' ∉ cleanup s := by
  unfold cleanup
  refine not_mem_replaceAll ?_ (by decide)
  refine not_mem_replaceAll ?_ (by decide)
  refine not_mem_replaceAll ?_ (by decide)
  refine not_mem_replaceAll ?_ (by decide)
  refine not_mem_replaceAll ?_ (by decide)
  refine not_mem_replaceAll ?_ (by decide)
  refine not_mem_replaceAll ?_ (by decide)
  exact replaceAll_single_not_mem (by decide) _

lemma lparen_not_mem_cleanup (s : List Char) : '(' ∉ cleanup s := by
  unfold cleanup
  refine not_mem_replaceAll ?_ (by decide)
  refine not_mem_replaceAll ?_ (by decide)
  refine not_mem_replaceAll ?_ (by decide)
  refine not_mem_replaceAll ?_ (by decide)
  refine not_mem_replaceAll ?_ (by decide)
  refine not_mem_replaceAll ?_ (by decide)
  exact replaceAll_single_not_mem (by decide) _

lemma rparen_not_mem_cleanup (s : List Char) : ')' ∉ cleanup s := by
  unfold cleanup
  refine not_mem_replaceAll ?_ (by decide)
  refine not_mem_replaceAll ?_ (by decide)
  refine not_mem_replaceAll ?_ (by decide)
  refine not_mem_replaceAll ?_ (by decide)
  refine not_mem_replaceAll ?_ (by decide)
  exact replaceAll_single_not_mem (by decide) _

lemma lbracket_not_mem_cleanup (s : List Char) : '[' ∉ cleanup s := by
  unfold cleanup
  refine not_mem_replaceAll ?_ (by decide)
  refine not_mem_replaceAll ?_ (by decide)
  refine not_mem_replaceAll ?_ (by decide)
  refine not_mem_replaceAll ?_ (by decide)
  exact replaceAll_single_not_mem (by decide) _

lemma rbracket_not_mem_cleanup (s : List Char) : ']' ∉ cleanup s := by
  unfold cleanup
  refine not_mem_replaceAll ?_ (by decide)
  refine not_mem_replaceAll ?_ (by decide)
  refine not_mem_replaceAll ?_ (by decide)
  exact replaceAll_single_not_mem (by decide) _

lemma not_mem_get_new_filename {c : Char} {f fmt : List Char}
    (hclean : ∀ s, c ∉ cleanup s) (hlow : c ∉ ascii_lower_values)
    (hdash : c ≠ '-') (hund : c ≠ '_') (hdot : c ≠ '.') (hfmt : c ∉ fmt) :
    c ∉ get_new_filename f fmt := by
  intro h
  unfold get_new_filename at h
  rcases List.mem_append.mp h with h | h
  · have h2 := mem_splitext_root h
    unfold reassemble at h2
    rcases List.mem_append.mp h2 with h3 | h3
    · rcases List.mem_append.mp h3 with h4 | h4
      · rcases mem_replaceAll h4 with h5 | h5
        · rcases mem_py_lower h5 with h6 | h6
          · exact hclean _ (List.take_subset _ _ (mem_py_strip h6))
          · exact hlow h6
        · rcases List.mem_singleton.mp h5 with rfl
          exact hdash rfl
      · rcases List.mem_cons.mp h4 with h5 | h5
        · exact hund h5
        · rcases List.mem_singleton.mp h5 with rfl
          exact hund rfl
    · exact hclean _ (List.drop_subset _ _ h3)
  · rcases List.mem_cons.mp h with h | h
    · exact hdot h
    · exact hfmt h

lemma space_not_mem_get_new_filename {f fmt : List Char} (hfmt : ' ' ∉ fmt) :
    ' ' ∉ get_new_filename f fmt :=
  not_mem_get_new_filename space_not_mem_cleanup (by decide) (by decide)
    (by decide) (by decide) hfmt

lemma takeWhile_append_stop {q : Char → Bool} :
    ∀ (l₁ : List Char) (x : Char) (l₂ : List Char),
      (∀ c ∈ l₁, q c = true) → q x = false →
      (l₁ ++ x :: l₂).takeWhile q = l₁ := by
  intro l₁
  induction l₁ with
  | nil =>
    intro x l₂ _ hx
    simp [List.takeWhile_cons, hx]
  | cons c l ih =>
    intro x l₂ hall hx
    have hc : q c = true := hall c (.head _)
    simp [List.takeWhile_cons, hc, ih x l₂ (fun d hd => hall d (.tail _ hd)) hx]

lemma takeWhile_append_of_mem {q : Char → Bool} :
    ∀ (l₁ l₂ : List Char), (∃ x ∈ l₁, q x = false) →
      (l₁ ++ l₂).takeWhile q = l₁.takeWhile q := by
  intro l₁
  induction l₁ with
  | nil =>
    rintro l₂ ⟨x, hx, -⟩
    cases hx
  | cons c l ih =>
    rintro l₂ ⟨x, hx, hqx⟩
    cases hqc : q c with
    | false => simp [List.takeWhile_cons, hqc]
    | true =>
      have hxl : x ∈ l := by
        rcases List.mem_cons.mp hx with rfl | h
        · rw [hqx] at hqc; cases hqc
        · exact h
      simp [List.takeWhile_cons, hqc, ih l₂ ⟨x, hxl, hqx⟩]

lemma takeWhile_eq_self_of_all {q : Char → Bool} :
    ∀ (l : List Char), (∀ c ∈ l, q c = true) → l.takeWhile q = l := by
  intro l
  induction l with
  | nil => intro _; rfl
  | cons c t ih =>
    intro hall
    simp [List.takeWhile_cons, hall c (.head _), ih (fun d hd => hall d (.tail _ hd))]

lemma exists_not_of_takeWhile_length_ne {q : Char → Bool} {l : List Char}
    (h : (l.takeWhile q).length ≠ l.length) : ∃ x ∈ l, q x = false := by
  by_contra hno
  push_neg at hno
  refine h ?_
  rw [takeWhile_eq_self_of_all l (fun c hc => ?_)]
  have := hno c hc
  cases hqc : q c with
  | false => exact absurd hqc this
  | true => rfl

lemma foldl_replaceAll_id :
    ∀ (ops : List (List Char × List Char)) (s : List Char),
      (∀ p ∈ ops, ¬ p.1 <:+: s) →
      ops.foldl (fun acc p => replaceAll p.1 p.2 acc) s = s := by
  intro ops
  induction ops with
  | nil => intro s _; rfl
  | cons op rest ih =>
    intro s h
    simp only [List.foldl_cons]
    rw [replaceAll_id_of_no_match (h op (.head _))]
    exact ih s (fun p hp => h p (.tail _ hp))

lemma reassemble_ne_nil (s : List Char) : reassemble s ≠ [] := by
  unfold reassemble
  intro h
  have hlen := congrArg List.length h
  simp [List.length_append] at hlen

lemma splitext_root_ne_nil {p : List Char} (hp : p ≠ []) : splitext_root p ≠ [] := by
  simp only [splitext_root]
  set baseRev := p.reverse.takeWhile (fun c => !(c == '/')) with hbase
  set extRev := baseRev.takeWhile (fun c => !(c == '.')) with hext
  by_cases h1 : extRev.length = baseRev.length
  · rw [if_pos h1]; exact hp
  · rw [if_neg h1]
    by_cases h2 : (baseRev.drop (extRev.length + 1)).all (fun c => c == '.') = true
    · rw [if_pos h2]; exact hp
    · rw [if_neg h2]
      have hbl : baseRev.length ≤ p.length := by
        calc baseRev.length ≤ p.reverse.length := (List.takeWhile_sublist _).length_le
        _ = p.length := List.length_reverse _
      have hdrop : baseRev.drop (extRev.length + 1) ≠ [] := by
        intro hnil
        rw [hnil] at h2
        exact h2 rfl
      have hlen2 : extRev.length + 1 < baseRev.length := by
        by_contra hge
        push_neg at hge
        exact hdrop (List.drop_eq_nil_of_le hge)
      intro htake
      have hlen3 := congrArg List.length htake
      rw [List.length_take] at hlen3
      simp only [List.length_nil] at hlen3
      rcases Nat.min_eq_zero_iff.mp hlen3 with h | h <;> omega

lemma before_last_dot_append {root fmt : List Char} (hfmt : '.' ∉ fmt) :
    before_last_dot (root ++ '.' :: fmt) = root := by
  simp only [before_last_dot]
  have hrev : (root ++ '.' :: fmt).reverse = fmt.reverse ++ '.' :: root.reverse := by
    rw [List.reverse_append, List.reverse_cons, List.append_assoc]
    rfl
  rw [hrev]
  rw [takeWhile_append_stop fmt.reverse '.' root.reverse
        (fun c hc => by
          have hcf : c ∈ fmt := List.mem_reverse.mp hc
          have : ¬ c = '.' := fun hcc => hfmt (hcc ▸ hcf)
          simpa using this)
        (by decide)]
  rw [if_neg (by simp [List.length_append]; omega)]
  have harith : (root ++ '.' :: fmt).length - fmt.reverse.length - 1 = root.length := by
    simp [List.length_append]
    omega
  rw [harith, List.take_left]

lemma splitext_eq_before_of_proper {t : List Char} (h : has_proper_ext t = true) :
    splitext_root t = before_last_dot t := by
  simp only [has_proper_ext] at h
  rw [Bool.and_eq_true] at h
  obtain ⟨h1, h2⟩ := h
  rw [bne_iff_ne] at h1
  rw [Bool.not_eq_true'] at h2
  simp only [splitext_root, before_last_dot]
  set baseRev := t.reverse.takeWhile (fun c => !(c == '/')) with hbase
  set extRev := baseRev.takeWhile (fun c => !(c == '.')) with hext
  have hsplit : baseRev ++ t.reverse.dropWhile (fun c => !(c == '/')) = t.reverse :=
    List.takeWhile_append_dropWhile _ _
  have hexts : t.reverse.takeWhile (fun c => !(c == '.')) = extRev := by
    rw [← hsplit, takeWhile_append_of_mem _ _ (exists_not_of_takeWhile_length_ne h1)]
  rw [if_neg h1, if_neg (by rw [h2]; exact Bool.false_ne_true), hexts]
  have hbl : baseRev.length ≤ t.length := by
    calc baseRev.length ≤ t.reverse.length := (List.takeWhile_sublist _).length_le
    _ = t.length := List.length_reverse _
  have hel : extRev.length < baseRev.length :=
    lt_of_le_of_ne ((List.takeWhile_sublist _).length_le) h1
  rw [if_neg (by omega)]

/-! ## Claims -/

/-- C3: `get_new_filename` is a total function: for every input string
(including strings shorter than 16 characters, and even the empty string)
and every `fmt`, it returns a well-formed string — a nonempty base followed
by `"." ++ fmt` — and never signals an error; malformed input yields at
worst a nonsensical string, as the two short-input evaluations show. -/
theorem youtil_c3 :
    (∀ filename fmt : List Char, ∃ base : List Char,
        base ≠ [] ∧ get_new_filename filename fmt = base ++ '.' :: fmt)
    ∧ get_new_filename [] ("mp3".data) = ("__.mp3".data)
    ∧ get_new_filename ("ab".data) ("mp3".data) = ("__ab.mp3".data) := by
  refine ⟨?_, by decide, by decide⟩
  intro filename fmt
  exact ⟨splitext_root (reassemble (cleanup (apply_replacements filename))),
    splitext_root_ne_nil (reassemble_ne_nil _), rfl⟩

/-- C5: applying the ordered replacement-table pass twice to a string that
contains none of the table's keys yields the same string as applying it
once. -/
theorem youtil_c5 (s : List Char)
    (h : ∀ p ∈ replacements, ¬ p.1 <:+: s) :
    apply_replacements (apply_replacements s) = apply_replacements s := by
  unfold apply_replacements
  rw [foldl_replaceAll_id replacements s h, foldl_replaceAll_id replacements s h]

theorem youtil_c5_witness :
    (∀ p ∈ replacements, ¬ p.1 <:+: ("hello.webm".data))
    ∧ apply_replacements (apply_replacements ("hello.webm".data))
        = apply_replacements ("hello.webm".data) :=
  ⟨by decide, youtil_c5 _ (by decide)⟩

/-- C6: the conversion result record always reports success with no error
code, for every filename and regardless of the subprocess outcome `run`;
in particular no documented error code is ever returned. -/
theorem youtil_c6 (run : List Char → Int) (filename : List Char) :
    (convert_to_mp3 run filename).1.successfully_converted = true
    ∧ (convert_to_mp3 run filename).1.error_code = none :=
  ⟨rfl, rfl⟩

/-- C7: `convert_to_mp3` computes the target as `get_new_filename` with
`"mp3"`, returns it in `new_filename` with `original_filename` the input,
and the single shell command executed is exactly the ffmpeg invocation with
both filenames interpolated unescaped between double quotes. -/
theorem youtil_c7 (run : List Char → Int) (filename : List Char) :
    (convert_to_mp3 run filename).1.original_filename = filename
    ∧ (convert_to_mp3 run filename).1.new_filename
        = get_new_filename filename ("mp3".data)
    ∧ (convert_to_mp3 run filename).2
        = ("ffmpeg -i \"".data) ++ filename
            ++ ("\" -vn -ab 128k -ar 44100 -y \"".data)
            ++ get_new_filename filename ("mp3".data) ++ '"' :: [] :=
  ⟨rfl, rfl, rfl⟩

/-- C10: for every input filename and every `fmt` containing no space,
comma, parenthesis or square-bracket character, the output of
`get_new_filename` contains none of those characters. -/
theorem youtil_c10 (filename fmt : List Char)
    (hfmt : ∀ c ∈ forbidden_chars, c ∉ fmt) :
    ∀ c ∈ forbidden_chars, c ∉ get_new_filename filename fmt := by
  intro c hc
  simp only [forbidden_chars, List.mem_cons, List.not_mem_nil, or_false] at hc
  rcases hc with rfl | rfl | rfl | rfl | rfl | rfl
  · exact not_mem_get_new_filename space_not_mem_cleanup (by decide) (by decide)
      (by decide) (by decide) (hfmt _ (by decide))
  · exact not_mem_get_new_filename comma_not_mem_cleanup (by decide) (by decide)
      (by decide) (by decide) (hfmt _ (by decide))
  · exact not_mem_get_new_filename lparen_not_mem_cleanup (by decide) (by decide)
      (by decide) (by decide) (hfmt _ (by decide))
  · exact not_mem_get_new_filename rparen_not_mem_cleanup (by decide) (by decide)
      (by decide) (by decide) (hfmt _ (by decide))
  · exact not_mem_get_new_filename lbracket_not_mem_cleanup (by decide) (by decide)
      (by decide) (by decide) (hfmt _ (by decide))
  · exact not_mem_get_new_filename rbracket_not_mem_cleanup (by decide) (by decide)
      (by decide) (by decide) (hfmt _ (by decide))

theorem youtil_c10_witness :
    (∀ c ∈ forbidden_chars, c ∉ ("mp3".data))
    ∧ ' ' ∉ get_new_filename ("a b,(c)[d].webm".data) ("mp3".data) :=
  ⟨by decide, youtil_c10 _ _ (by decide) ' ' (by decide)⟩

/-- C4 counterexample: the filename `"x Part & y"` contains the table
phrase `" & "`, yet the output of `get_new_filename` does not contain the
corresponding replacement `"-and-"` — the earlier `" Part "` entry consumes
the space before `"&"`, so the `" & "` occurrence is destroyed before its
own table entry runs.  This refutes the claim as stated. -/
theorem youtil_c4_counterexample :
    (" & ".data) <:+: ("x Part & y".data)
    ∧ ¬ ("-and-".data) <:+: get_new_filename ("x Part & y".data) ("mp3".data) := by
  decide

/-- C4 (amended): (i) each single replacement-table step maps any string
containing its phrase to a string containing its replacement; (ii) for a
space-free `fmt`, the final output never contains any original phrase
(every phrase contains a space, and the output contains none); (iii)
matching is literal and case-sensitive: `"a Feat. b"` (capital F, no
parenthesis — a case variant of the keys) is left unchanged by the
replacement pass.  The full pipeline need not preserve the inserted
replacement text: an earlier table entry can consume overlapping text, and
the 16-character split can cut through it. -/
theorem youtil_c4 :
    (∀ old new : List Char, (old, new) ∈ replacements →
      ∀ s : List Char, old <:+: s → new <:+: replaceAll old new s)
    ∧ (∀ old new : List Char, (old, new) ∈ replacements →
      ∀ filename fmt : List Char, ' ' ∉ fmt →
        ¬ old <:+: get_new_filename filename fmt)
    ∧ apply_replacements ("a Feat. b".data) = ("a Feat. b".data) := by
  refine ⟨?_, ?_, by decide⟩
  · intro old new hmem s hs
    have hne : ∀ p ∈ replacements, p.1 ≠ [] := by decide
    exact replaceAll_infix_new (hne (old, new) hmem) hs
  · intro old new hmem filename fmt hfmt hin
    have hsp : ∀ p ∈ replacements, ' ' ∈ p.1 := by decide
    exact space_not_mem_get_new_filename hfmt
      (hin.sublist.subset (hsp (old, new) hmem))

theorem youtil_c4_witness :
    ("-and-".data) <:+: replaceAll (" & ".data) ("-and-".data) ("a & b".data)
    ∧ ¬ (" & ".data) <:+: get_new_filename ("a & b".data) ("mp3".data) :=
  ⟨youtil_c4.1 (" & ".data) ("-and-".data) (by decide) ("a & b".data) (by decide),
   youtil_c4.2.1 (" & ".data) ("-and-".data) (by decide) ("a & b".data)
     ("mp3".data) (by decide)⟩

/-- C1 counterexample: for the input below (whose cleaned string has 16+
characters) `get_new_filename` does not equal the claimed
`lower(head) ++ "__" ++ tail` form: the code also *strips* the head, and
here the head ends in a tab character, which the claimed form keeps. -/
theorem youtil_c1_counterexample :
    16 ≤ (cleanup (apply_replacements ("a\tbcdefghijklmnopq".data))).length
    ∧ get_new_filename ("a\tbcdefghijklmnopq".data) ("mp3".data)
        ≠ claimed_c1_result ("a\tbcdefghijklmnopq".data) ("mp3".data) := by
  decide

/-- C1 (amended): for every input whose cleaned string has at least 16
characters, the result splits that string into the head (all but the last
16 characters) and the verbatim 16-character tail (keeping its case),
*strips and* lower-cases the head, and reassembles `head ++ "__" ++ tail`
before the extension step; the code's space-to-hyphen substitution on the
head is provably the identity because the cleaned string contains no
spaces.  In particular the §8.4-style concrete name with `fmt = "mp3"` maps
to the displayed lower-cased, hyphenated value with extension `.mp3`. -/
theorem youtil_c1 :
    (∀ filename fmt : List Char,
      16 ≤ (cleanup (apply_replacements filename)).length →
      get_new_filename filename fmt =
        splitext_root
          (py_lower (py_strip ((cleanup (apply_replacements filename)).take
              ((cleanup (apply_replacements filename)).length - 16)))
            ++ '_' :: '_' :: []
            ++ (cleanup (apply_replacements filename)).drop
              ((cleanup (apply_replacements filename)).length - 16))
          ++ '.' :: fmt)
    ∧ get_new_filename
        ("Artist Name - Song Title (Official Video) [Official Music Video]_UYIAfiVGluk123.webm".data)
        ("mp3".data)
      = ("artistname-songtitle_uyi__AfiVGluk123.mp3".data) := by
  constructor
  · intro filename fmt _h
    have hnosp : ' ' ∉ py_lower (py_strip ((cleanup (apply_replacements filename)).take
        ((cleanup (apply_replacements filename)).length - 16))) := by
      intro hsp
      rcases mem_py_lower hsp with h1 | h1
      · exact space_not_mem_cleanup _ (List.take_subset _ _ (mem_py_strip h1))
      · exact absurd h1 (by decide)
    unfold get_new_filename reassemble
    rw [replaceAll_id_of_not_mem hnosp]
  · decide

theorem youtil_c1_witness :
    get_new_filename ("aaaaaaaaaaaaaaaaaa".data) ("mp3".data) =
      splitext_root
        (py_lower (py_strip ((cleanup (apply_replacements ("aaaaaaaaaaaaaaaaaa".data))).take
            ((cleanup (apply_replacements ("aaaaaaaaaaaaaaaaaa".data))).length - 16)))
          ++ '_' :: '_' :: []
          ++ (cleanup (apply_replacements ("aaaaaaaaaaaaaaaaaa".data))).drop
            ((cleanup (apply_replacements ("aaaaaaaaaaaaaaaaaa".data))).length - 16))
        ++ '.' :: ("mp3".data) :=
  youtil_c1.1 _ _ (by decide)

/-- C2 counterexample: the input `"..aaaaaaaaaaaaaaaa"` ends in
`"." ++ "aaaaaaaaaaaaaaaa"`, yet the output's text before its final period
differs from the transformed string's text before its final period:
`os.path.splitext` finds no extension when only periods precede the last
period in the final path component, and keeps the whole string as the
base. -/
theorem youtil_c2_counterexample :
    ("..aaaaaaaaaaaaaaaa".data).drop 1 = '.' :: ("aaaaaaaaaaaaaaaa".data)
    ∧ before_last_dot (get_new_filename ("..aaaaaaaaaaaaaaaa".data) ("mp3".data))
        ≠ before_last_dot
            (reassemble (cleanup (apply_replacements ("..aaaaaaaaaaaaaaaa".data)))) := by
  decide

/-- C2 (amended): for every input and `fmt` the output is a base followed
by exactly `"." ++ fmt`; and whenever `fmt` contains no period and the
transformed (reassembled) string has a genuine extension in the
`os.path.splitext` sense — its final path component contains a period
preceded by some non-period character — the output's text before its final
period equals the transformed string's text before its final period.  (In
the remaining cases `splitext` keeps the whole transformed string as the
base.) -/
theorem youtil_c2 : ∀ filename fmt : List Char,
    (∃ base, get_new_filename filename fmt = base ++ '.' :: fmt)
    ∧ ('.' ∉ fmt →
        has_proper_ext (reassemble (cleanup (apply_replacements filename))) = true →
        before_last_dot (get_new_filename filename fmt)
          = before_last_dot (reassemble (cleanup (apply_replacements filename)))) := by
  intro filename fmt
  constructor
  · exact ⟨_, rfl⟩
  · intro hdot hproper
    unfold get_new_filename
    rw [before_last_dot_append hdot, splitext_eq_before_of_proper hproper]

theorem youtil_c2_witness :
    '.' ∉ ("mp3".data)
    ∧ has_proper_ext (reassemble (cleanup (apply_replacements ("abc.webm".data)))) = true
    ∧ before_last_dot (get_new_filename ("abc.webm".data) ("mp3".data))
        = before_last_dot (reassemble (cleanup (apply_replacements ("abc.webm".data)))) :=
  ⟨by decide, by decide, (youtil_c2 ("abc.webm".data) ("mp3".data)).2 (by decide) (by decide)⟩

/-- C8: `download_video` returns the empty record exactly when the external
library returns no metadata; otherwise it fails with an index error when no
file of the working directory contains the video id, and else returns a
record with exactly the documented eight fields, whose `filename` is the
first file of the directory whose name contains the id. -/
theorem youtil_c8 (video_info : Option VideoInfo) (dir_listing : List (List Char))
    (now_ts : Int) (url : List Char) :
    (download_video video_info dir_listing now_ts url = .ok none ↔ video_info = none)
    ∧ (∀ info, video_info = some info →
        (dir_listing.filter (fun f => decide (info.id <:+: f)) = [] →
          download_video video_info dir_listing now_ts url = .error .index_error)
        ∧ (∀ fn rest, dir_listing.filter (fun f => decide (info.id <:+: f)) = fn :: rest →
            download_video video_info dir_listing now_ts url =
              .ok (some { url := url, filename := fn,
                          filesize := info.filesize_approx, title := info.title,
                          fulltitle := info.fulltitle, youtube_id := info.id,
                          duration := info.duration, timestamp := now_ts }))) := by
  constructor
  · cases video_info with
    | none => simp [download_video]
    | some info =>
      simp only [download_video, glob_glob]
      cases h : dir_listing.filter (fun f => decide (info.id <:+: f)) with
      | nil => simp [h]
      | cons a t => simp [h]
  · intro info hinfo
    subst hinfo
    constructor
    · intro hfilter
      simp [download_video, glob_glob, hfilter]
    · intro fn rest hfilter
      simp [download_video, glob_glob, hfilter]

theorem youtil_c8_witness :
    download_video
        (some { id := "abc123".data, filesize_approx := 7, title := "t".data,
                fulltitle := "tt".data, duration := 9 })
        ([("x.txt".data), ("y_abc123.webm".data)]) 5 ("u".data)
      = .ok (some { url := "u".data, filename := "y_abc123.webm".data,
                    filesize := 7, title := "t".data, fulltitle := "tt".data,
                    youtube_id := "abc123".data, duration := 9, timestamp := 5 }) :=
  ((youtil_c8 _ _ 5 ("u".data)).2 _ rfl).2 ("y_abc123.webm".data) [] (by decide)

/-- C9: the two batch operations map a length-`N` input list to a length-`N`
output list in the same order, whose `i`-th element is the result of the
corresponding single-item operation on the `i`-th input (for downloads:
whenever the batch returns a list at all, i.e. no iteration fails). -/
theorem youtil_c9 :
    (∀ (run : List Char → Int) (filename_list : List (List Char)),
      (batch_convert_to_mp3 run filename_list).length = filename_list.length
      ∧ ∀ (i : Nat) (fn : List Char), filename_list[i]? = some fn →
          (batch_convert_to_mp3 run filename_list)[i]? = some (convert_to_mp3 run fn).1)
    ∧ (∀ (env : List Char → Option VideoInfo × List (List Char) × Int)
        (url_list : List (List Char)) (rs : List (Option DownloadRecord)),
        batch_download_video env url_list = .ok rs →
        rs.length = url_list.length
        ∧ ∀ (i : Nat) (u : List Char), url_list[i]? = some u →
            ∃ r, rs[i]? = some r
              ∧ download_video (env u).1 (env u).2.1 (env u).2.2 u = .ok r) := by
  constructor
  · intro run fl
    induction fl with
    | nil =>
      refine ⟨rfl, ?_⟩
      intro i fn h
      simp at h
    | cons f rest ih =>
      refine ⟨by simp [batch_convert_to_mp3, ih.1], ?_⟩
      intro i fn h
      cases i with
      | zero =>
        simp only [List.getElem?_cons_zero, Option.some.injEq] at h
        subst h
        simp [batch_convert_to_mp3]
      | succ n =>
        simp only [List.getElem?_cons_succ] at h
        simpa [batch_convert_to_mp3] using ih.2 n fn h
  · intro env ul
    induction ul with
    | nil =>
      intro rs h
      simp only [batch_download_video] at h
      injection h with h2
      subst h2
      refine ⟨rfl, ?_⟩
      intro i u hu
      simp at hu
    | cons u rest ih =>
      intro rs h
      simp only [batch_download_video] at h
      split at h
      · exact Except.noConfusion h
      · next r hd =>
        split at h
        · exact Except.noConfusion h
        · next rs' hb =>
          injection h with h2
          subst h2
          obtain ⟨hlen, hidx⟩ := ih rs' hb
          refine ⟨by simp [hlen], ?_⟩
          intro i u' hu
          cases i with
          | zero =>
            simp only [List.getElem?_cons_zero, Option.some.injEq] at hu
            subst hu
            exact ⟨r, by simp, hd⟩
          | succ n =>
            simp only [List.getElem?_cons_succ] at hu ⊢
            exact hidx n u' hu

theorem youtil_c9_witness :
    (batch_convert_to_mp3 (fun _ => 0) (("ab.webm".data) :: [])).length
        = (("ab.webm".data) :: []).length
    ∧ ([(none : Option DownloadRecord)].length = [("u".data)].length) :=
  ⟨(youtil_c9.1 (fun _ => 0) (("ab.webm".data) :: [])).1,
   (youtil_c9.2
      (fun _ => ((none : Option VideoInfo), ([] : List (List Char)), (0 : Int)))
      [("u".data)] [none] rfl).1⟩

